import Mathlib

/-!
Verification development for the stark-102 repository: a shallow embedding of
the prime-field arithmetic (`src/field.rs`), polynomials (`src/poly.rs`),
Merkle commitments (`src/merkle.rs`), the Fiat-Shamir channel
(`src/channel.rs`), and the prover/verifier state machines
(`src/prover.rs`, `src/verifier.rs`), together with theorems settling the
specification claims.

Machine integers are modelled as `Nat` with explicit reductions (`% 2^32` for
the 32-bit words of the hash, `% 256` for bytes, `% 17` for field elements).
Fallible operations return `Option`/`Except`.
-/

set_option maxRecDepth 100000

set_option maxHeartbeats 1000000

namespace Stark102

/-! ### BLAKE3 (external collaborator of `src/channel.rs` and `src/merkle.rs`)

The repository hashes with the `blake3` crate (default parameters, 32-byte
output).  Every call site hashes at most 64 bytes (a 1-byte leaf or salt, a
32+8-byte rehash, or a 32+32-byte concatenation), which is a single block of a
single chunk, so the hash of such a message is one compression of the input
block with the flag bits CHUNK_START | CHUNK_END | ROOT = 11 and counter 0.
Bytes are `Nat < 256`; words are `Nat < 2^32`. -/

/-- Right rotation of a 32-bit word (input assumed `< 2^32`). -/
def rotr32 (x n : Nat) : Nat := ((x >>> n) ||| (x <<< (32 - n))) % 4294967296

/-- Quarter-round mixing function `G` of BLAKE3, acting on four state words
with two message words. -/
def gmix (a b c d mx my : Nat) : Nat × Nat × Nat × Nat :=
  let a := (a + b + mx) % 4294967296
  let d := rotr32 (d ^^^ a) 16
  let c := (c + d) % 4294967296
  let b := rotr32 (b ^^^ c) 12
  let a := (a + b + my) % 4294967296
  let d := rotr32 (d ^^^ a) 8
  let c := (c + d) % 4294967296
  let b := rotr32 (b ^^^ c) 7
  (a, b, c, d)

/-- Sixteen 32-bit words: the compression state, and a message block. -/
structure Words16 where
  w0 : Nat
  w1 : Nat
  w2 : Nat
  w3 : Nat
  w4 : Nat
  w5 : Nat
  w6 : Nat
  w7 : Nat
  w8 : Nat
  w9 : Nat
  w10 : Nat
  w11 : Nat
  w12 : Nat
  w13 : Nat
  w14 : Nat
  w15 : Nat
deriving DecidableEq

/-- One BLAKE3 round: four column mixes followed by four diagonal mixes. -/
def b3round (v m : Words16) : Words16 :=
  let (x0, x4, x8, x12) := gmix v.w0 v.w4 v.w8 v.w12 m.w0 m.w1
  let (x1, x5, x9, x13) := gmix v.w1 v.w5 v.w9 v.w13 m.w2 m.w3
  let (x2, x6, x10, x14) := gmix v.w2 v.w6 v.w10 v.w14 m.w4 m.w5
  let (x3, x7, x11, x15) := gmix v.w3 v.w7 v.w11 v.w15 m.w6 m.w7
  let (y0, y5, y10, y15) := gmix x0 x5 x10 x15 m.w8 m.w9
  let (y1, y6, y11, y12) := gmix x1 x6 x11 x12 m.w10 m.w11
  let (y2, y7, y8, y13) := gmix x2 x7 x8 x13 m.w12 m.w13
  let (y3, y4, y9, y14) := gmix x3 x4 x9 x14 m.w14 m.w15
  ⟨y0, y1, y2, y3, y4, y5, y6, y7, y8, y9, y10, y11, y12, y13, y14, y15⟩

/-- The BLAKE3 message permutation, applied between rounds. -/
def permuteMsg (m : Words16) : Words16 :=
  ⟨m.w2, m.w6, m.w3, m.w10, m.w7, m.w0, m.w4, m.w13,
   m.w1, m.w11, m.w12, m.w5, m.w9, m.w14, m.w15, m.w8⟩

/-- Seven BLAKE3 rounds with the message permuted between consecutive rounds. -/
def compress7 (v m : Words16) : Words16 :=
  let v := b3round v m
  let m := permuteMsg m
  let v := b3round v m
  let m := permuteMsg m
  let v := b3round v m
  let m := permuteMsg m
  let v := b3round v m
  let m := permuteMsg m
  let v := b3round v m
  let m := permuteMsg m
  let v := b3round v m
  let m := permuteMsg m
  b3round v m

/-- Little-endian 32-bit word number `i` of a byte list (zero padded). -/
def leWord (bs : List Nat) (i : Nat) : Nat :=
  bs.getD (4 * i) 0 + 256 * bs.getD (4 * i + 1) 0 +
    65536 * bs.getD (4 * i + 2) 0 + 16777216 * bs.getD (4 * i + 3) 0

/-- A (at most 64-byte) message as a zero-padded block of sixteen words. -/
def msgWords (bs : List Nat) : Words16 :=
  ⟨leWord bs 0, leWord bs 1, leWord bs 2, leWord bs 3,
   leWord bs 4, leWord bs 5, leWord bs 6, leWord bs 7,
   leWord bs 8, leWord bs 9, leWord bs 10, leWord bs 11,
   leWord bs 12, leWord bs 13, leWord bs 14, leWord bs 15⟩

/-- Little-endian bytes of a 32-bit word. -/
def wordBytes (x : Nat) : List Nat :=
  [x % 256, x / 256 % 256, x / 65536 % 256, x / 16777216 % 256]

/-- BLAKE3 hash of a message of at most 64 bytes (the only case the repository
uses): a single root compression of the single block, with the standard IV,
counter 0, the block length, and flags CHUNK_START | CHUNK_END | ROOT. -/
def blake3Hash (bs : List Nat) : List Nat :=
  let m := msgWords bs
  let v : Words16 :=
    ⟨0x6A09E667, 0xBB67AE85, 0x3C6EF372, 0xA54FF53A,
     0x510E527F, 0x9B05688C, 0x1F83D9AB, 0x5BE0CD19,
     0x6A09E667, 0xBB67AE85, 0x3C6EF372, 0xA54FF53A,
     0, 0, bs.length, 11⟩
  let w := compress7 v m
  wordBytes (w.w0 ^^^ w.w8) ++ wordBytes (w.w1 ^^^ w.w9) ++
    wordBytes (w.w2 ^^^ w.w10) ++ wordBytes (w.w3 ^^^ w.w11) ++
    wordBytes (w.w4 ^^^ w.w12) ++ wordBytes (w.w5 ^^^ w.w13) ++
    wordBytes (w.w6 ^^^ w.w14) ++ wordBytes (w.w7 ^^^ w.w15)

/-- Sanity anchor: the embedded BLAKE3 agrees with the official test vector
for the empty message. -/
example : blake3Hash [] =
    [0xaf, 0x13, 0x49, 0xb9, 0xf5, 0xf9, 0xa1, 0xa6,
     0xa0, 0x40, 0x4d, 0xea, 0x36, 0xdc, 0xc9, 0x49,
     0x9b, 0xcb, 0x25, 0xc9, 0xad, 0xc1, 0x12, 0xb7,
     0xcc, 0x9a, 0x93, 0xca, 0xe4, 0x1f, 0x32, 0x62] := by decide

/-! ### Field `GF(17)` (`src/field.rs`)

`BaseField` stores a `u8` kept in canonical form `[0, 17)`; we embed it as
`Fin 17`.  Each operation is translated from its Rust source; where the source
panics (inverse of zero, division by zero, log of zero / of a non-residue) the
embedded function returns a junk value `0`, and every theorem that relies on
such an operation carries or discharges the corresponding nonzero side
condition. -/

/-- Field elements: integers modulo `PRIME = 17` in canonical form. -/
abbrev F17 := Fin 17

/-- Smart constructor: `BaseField::new` / `From<u8>`, reducing modulo 17. -/
def fOf (n : Nat) : F17 := ⟨n % 17, Nat.mod_lt _ (by decide)⟩

/-- Addition: `(a + b) % PRIME` (`impl Add for BaseField`). -/
def fadd (a b : F17) : F17 := ⟨(a.val + b.val) % 17, Nat.mod_lt _ (by decide)⟩

/-- Subtraction: `((a + PRIME) - b) % PRIME` (`impl Sub for BaseField`). -/
def fsub (a b : F17) : F17 :=
  ⟨((a.val + 17) - b.val) % 17, Nat.mod_lt _ (by decide)⟩

/-- Multiplication (`impl Mul for BaseField`): zero short-circuits, then the
`u8`-overflow-avoiding trick `a * (b - 1) % 17 + a`, reduced again. -/
def fmul (a b : F17) : F17 :=
  if a = 0 ∨ b = 0 then 0
  else ⟨((a.val * (b.val - 1)) % 17 + a.val) % 17, Nat.mod_lt _ (by decide)⟩

/-- The same multiplication with every intermediate wrapped at the `u8` width
(`% 256`), i.e. with release-mode wrapping semantics; used to state that the
source computation never overflows the byte. -/
def fmulU8 (a b : F17) : F17 :=
  if a = 0 ∨ b = 0 then 0
  else
    ⟨(((a.val * ((b.val - 1) % 256)) % 256) % 17 + a.val) % 256 % 17,
     Nat.mod_lt _ (by decide)⟩

/-- Squaring (`BaseField::square`): `(a * a) % PRIME` computed in `u8`, hence
with an intermediate wrap at 256 (only ever called on 3, 9, 13, where no wrap
occurs). -/
def fsquare (a : F17) : F17 := ⟨a.val * a.val % 256 % 17, Nat.mod_lt _ (by decide)⟩

/-- Exponentiation by repeated multiplication (`BaseField::exp`):
`result = 1; repeat e times { result *= self }`. -/
def fexp (a : F17) : Nat → F17
  | 0 => 1
  | n + 1 => fmul (fexp a n) a

/-- Discrete-log loop body of `BaseField::log`: up to `fuel` more iterations of
`result *= base; if result == x { return i }`; returns 0 (junk) when the loop
runs out — the source panics there. -/
def flogAux (base x : F17) : F17 → Nat → Nat → Nat
  | _, _, 0 => 0
  | result, i, fuel + 1 =>
    let result := fmul result base
    if result = x then i else flogAux base x result (i + 1) fuel

/-- Discrete logarithm `BaseField::log(x, base)`: `log(1) = 0`, otherwise the
search loop `for i in 1..PRIME`; `log(0)` panics in the source (junk 0 here). -/
def flog (x base : F17) : Nat :=
  if x = 1 then 0 else flogAux base x 1 1 16

/-- Multiplicative inverse (`BaseField::mult_inv`): with generator 3 and
`i = log_3(x)`, returns `3^(PRIME - 1 - i)`; asserts `x ≠ 0` in the source
(junk 0 here). -/
def finv (a : F17) : F17 :=
  if a = 0 then 0 else fexp (fOf 3) (16 - flog a (fOf 3))

/-- Additive inverse (`BaseField::minus`): `BaseField::from(-1) * a`. -/
def fminus (a : F17) : F17 := fmul (fOf 16) a

/-- Division (`impl Div for BaseField`): panics on a zero divisor (junk 0
here), returns 0 for a zero dividend, otherwise multiplies by the inverse. -/
def fdiv (a b : F17) : F17 :=
  if b = 0 then 0 else if a = 0 then 0 else fmul a (finv b)

/-- Conversion from a signed 32-bit integer (`impl From<i32> for BaseField`):
Rust's truncated remainder brings the value into `(-17, 17)`, adding 17 makes
it nonnegative, and the `u8` conversion reduces modulo 17. -/
def fOfInt (n : Int) : F17 := fOf (n.tmod 17 + 17).toNat

/-- Interpretation of a field element in the mathematical field `ZMod 17`;
the bridge along which the algebraic claims are proved. -/
def toZ (a : F17) : ZMod 17 := (a.val : ZMod 17)

instance : Fact (Nat.Prime 17) := ⟨by norm_num⟩

theorem toZ_injective : Function.Injective toZ := by decide

theorem toZ_fadd : ∀ a b : F17, toZ (fadd a b) = toZ a + toZ b := by decide

theorem toZ_fsub : ∀ a b : F17, toZ (fsub a b) = toZ a - toZ b := by decide

theorem toZ_fmul : ∀ a b : F17, toZ (fmul a b) = toZ a * toZ b := by decide

theorem toZ_fminus : ∀ a : F17, toZ (fminus a) = -toZ a := by decide

theorem toZ_zero : toZ 0 = 0 := by decide

theorem toZ_one : toZ 1 = 1 := by decide

theorem toZ_ne_zero : ∀ a : F17, a ≠ 0 → toZ a ≠ 0 := by decide

theorem fmul_finv_self : ∀ a : F17, a ≠ 0 → fmul a (finv a) = 1 := by decide

theorem toZ_finv {a : F17} (h : a ≠ 0) : toZ (finv a) = (toZ a)⁻¹ :=
  eq_inv_of_mul_eq_one_right (by rw [← toZ_fmul, fmul_finv_self a h, toZ_one])

theorem toZ_fdiv (a : F17) {b : F17} (h : b ≠ 0) :
    toZ (fdiv a b) = toZ a * (toZ b)⁻¹ := by
  unfold fdiv
  rw [if_neg h]
  by_cases ha : a = 0
  · subst ha; simp [toZ_zero]
  · rw [if_neg ha, toZ_fmul, toZ_finv h]

theorem toZ_fexp (a : F17) (e : Nat) : toZ (fexp a e) = toZ a ^ e := by
  induction e with
  | zero => rw [fexp, pow_zero, toZ_one]
  | succ n ih => rw [fexp, toZ_fmul, ih, pow_succ]

theorem fexp_two : ∀ x : F17, fexp x 2 = fmul x x := by decide

theorem fmul_ne_zero : ∀ a b : F17, a ≠ 0 → b ≠ 0 → fmul a b ≠ 0 := by decide

theorem fminus_ne_zero : ∀ a : F17, a ≠ 0 → fminus a ≠ 0 := by decide

/-- Powers of a nonzero element only depend on the exponent modulo 256 (in
particular Fermat: the multiplicative order divides 16, and 16 divides 256);
this is what makes the `i as u8` exponent truncation in `Polynomial::eval`
harmless away from zero. -/
theorem zpow_mod256 {z : ZMod 17} (hz : z ≠ 0) (e : Nat) : z ^ (e % 256) = z ^ e := by
  have h16 : z ^ 16 = 1 := by revert hz; revert z; decide
  have h256 : z ^ 256 = 1 := by
    have : z ^ 256 = (z ^ 16) ^ 16 := by rw [← pow_mul]
    rw [this, h16, one_pow]
  conv_rhs => rw [show e = 256 * (e / 256) + e % 256 from (Nat.div_add_mod e 256).symm ▸ rfl]
  rw [pow_add, pow_mul, h256, one_pow, one_mul]

/-! ### Polynomials (`src/poly.rs`)

A `Polynomial` is its dense coefficient list `[a_0, a_1, ..]`; we embed it as
`List F17`.  No trailing-zero normalization is performed, exactly as in the
source. -/

/-- Degree as reported by `Polynomial::degree`: `coefficients.len() - 1`
(natural subtraction, as for the `usize` of the source). -/
def degreeP (p : List F17) : Nat := p.length - 1

/-- Evaluation loop of `Polynomial::eval`: `result += coeff * x.exp(i as u8)`,
with the accumulator and the running index made explicit; `i as u8` truncates
the index to `i % 256`. -/
def evalAux (x : F17) : F17 → Nat → List F17 → F17
  | acc, _, [] => acc
  | acc, i, c :: cs => evalAux x (fadd acc (fmul c (fexp x (i % 256)))) (i + 1) cs

/-- Polynomial evaluation `p(x)` (`Polynomial::eval`). -/
def evalP (p : List F17) (x : F17) : F17 := evalAux x 0 0 p

/-- Evaluation over a whole domain in order (`Polynomial::eval_domain`). -/
def evalDomain (p : List F17) (domain : List F17) : List F17 :=
  domain.map (evalP p)

/-- Coefficientwise addition with the longer tail kept
(`impl Add for Polynomial`). -/
def polyAdd : List F17 → List F17 → List F17
  | [], q => q
  | p, [] => p
  | a :: p, b :: q => fadd a b :: polyAdd p q

/-- Coefficient `k` of the convolution: the accumulated sum of
`p[i] * q[k - i]` (out-of-range coefficients read as 0), mirroring the
accumulation of `impl Mul for Polynomial` into `mul_coeffs[idx_lhs + idx_rhs]`. -/
def convCoeff (p q : List F17) (k : Nat) : F17 :=
  (List.range (k + 1)).foldl (fun acc i => fadd acc (fmul (p.getD i 0) (q.getD (k - i) 0))) 0

/-- Polynomial multiplication (`impl Mul for Polynomial`): the result has
`self.degree() + rhs.degree() + 1` coefficients, coefficient `k` collecting
all products of coefficients whose indices sum to `k`. -/
def polyMul (p q : List F17) : List F17 :=
  (List.range (p.length + q.length - 1)).map (convCoeff p q)

/-- Multiplication by a scalar (`impl Mul<BaseField> for Polynomial`, also the
`scalar_mul` used by `src/constraints.rs`): multiplication by the degree-0
polynomial `[rhs]`. -/
def scalarMul (p : List F17) (a : F17) : List F17 := polyMul p [a]

/-- Division of a polynomial by a scalar (`impl Div<BaseField> for
Polynomial`): multiplication by its inverse. -/
def polyDivScalar (p : List F17) (a : F17) : List F17 := scalarMul p (finv a)

/-- Numerator accumulation of `Polynomial::partial_lagrange_poly`: multiply a
linear factor `[-x_k, 1]` for every domain element different from `x_j`. -/
def lagrangeNumerator (xj : F17) (domain : List F17) : List F17 :=
  domain.foldl (fun acc ele => if xj ≠ ele then polyMul acc [fminus ele, 1] else acc) [1]

/-- Denominator accumulation of `Polynomial::partial_lagrange_poly`: the
product of `x_j - x_k` over the same domain elements. -/
def lagrangeDenominator (xj : F17) (domain : List F17) : F17 :=
  domain.foldl (fun acc ele => if xj ≠ ele then fmul acc (fsub xj ele) else acc) 1

/-- One basis summand `(numerator * y_j) / denominator` of
`Polynomial::partial_lagrange_poly`. -/
def lagrangeBasisPoly (j : Nat) (domain evaluations : List F17) : List F17 :=
  let xj := domain.getD j 0
  let yj := evaluations.getD j 0
  polyDivScalar (scalarMul (lagrangeNumerator xj domain) yj) (lagrangeDenominator xj domain)

/-- Lagrange interpolation (`Polynomial::lagrange_interp`): errors when the
domain and evaluation sizes differ, otherwise sums the basis polynomials
starting from `Polynomial::zero() = [0]` (the `Sum` instance). -/
def lagrangeInterp (domain evaluations : List F17) : Option (List F17) :=
  if domain.length ≠ evaluations.length then none
  else some ((List.range domain.length).foldl
    (fun acc j => polyAdd acc (lagrangeBasisPoly j domain evaluations)) [0])

/-- Even-indexed coefficients (`step_by(2)` in `Polynomial::fri_step`). -/
def evensL : List F17 → List F17
  | [] => []
  | [a] => [a]
  | a :: _ :: t => a :: evensL t

/-- Odd-indexed coefficients (`skip(1).step_by(2)`). -/
def oddsL : List F17 → List F17
  | [] => []
  | _ :: t => evensL t

/-- The fold of `Polynomial::fri_step`: `even_poly + (odd_poly * beta)`. -/
def friFold (p : List F17) (beta : F17) : List F17 :=
  polyAdd (evensL p) (scalarMul (oddsL p) beta)

/-- `Polynomial::fri_step` itself: asserts at least two coefficients (`none`
models the panic), then folds. -/
def friStep (p : List F17) (beta : F17) : Option (List F17) :=
  if 2 ≤ p.length then some (friFold p beta) else none

/-! ### Domains (`src/domain.rs`, `CyclicGroup` of `src/field.rs`) -/

/-- The trace domain `DOMAIN_TRACE`: the order-4 subgroup with generator 13. -/
def DOMAIN_TRACE : List F17 := [1, fOf 13, fOf 16, fOf 4]

/-- The LDE domain `DOMAIN_LDE`: the order-8 subgroup shifted by the coset
offset 3. -/
def DOMAIN_LDE : List F17 :=
  [fOf 3, fOf 10, fOf 5, fOf 11, fOf 14, fOf 7, fOf 12, fOf 6]

/-- Coset shift `CyclicGroup::shift`: multiply every element by `g`. -/
def cyclicShift (elements : List F17) (g : F17) : List F17 :=
  elements.map (fun element => fmul element g)

/-- `CyclicGroup::new`: only sizes 4 and 8 are supported; size 8 is the
order-8 subgroup shifted by 3. -/
def cyclicGroupNew (size : Nat) : Option (List F17) :=
  if size ≠ 4 ∧ size ≠ 8 then none
  else if size = 4 then some [1, fOf 13, fOf 16, fOf 4]
  else some (cyclicShift [1, fOf 9, fOf 13, fOf 15, fOf 16, fOf 8, fOf 4, fOf 2] (fOf 3))

/-- Validation: the size-8 construction indeed reproduces `DOMAIN_LDE`. -/
example : cyclicGroupNew 8 = some DOMAIN_LDE := by decide

example : cyclicGroupNew 4 = some DOMAIN_TRACE := by decide

/-! ### Trace (`src/trace.rs`) and constraints (`src/constraints.rs`) -/

/-- The hand-derived boundary-quotient polynomial `(t(x) - 3)/(x - 1)`. -/
def boundaryConstraint : List F17 := [fOf 14, fOf 15, fOf 13]

/-- The hand-derived transition-quotient polynomial
`(t(gx) - t(x)^2) / ((x-1)(x-13)(x-16))`. -/
def transitionConstraint : List F17 := [fOf 16, fOf 9, fOf 12, 1]

/-- The composition polynomial: the random linear combination
`boundary * alpha_0 + transition * alpha_1`. -/
def compositionPolynomial (alpha0 alpha1 : F17) : List F17 :=
  polyAdd (scalarMul boundaryConstraint alpha0) (scalarMul transitionConstraint alpha1)

/-- `generate_trace`: start from `TRACE_FIRST_ELEMENT = 3` and square three
times. -/
def generateTrace : List F17 :=
  let t1 := fsquare (fOf 3)
  let t2 := fsquare t1
  let t3 := fsquare t2
  [fOf 3, t1, t2, t3]

example : generateTrace = [fOf 3, fOf 9, fOf 13, fOf 16] := by decide

/-! ### Merkle tree (`src/merkle.rs`, helper `src/util.rs`)

The source builds the tree with parent/child `Rc<RefCell<..>>` pointers and
walks them to extract paths.  We embed the same tree as its bottom-up layers:
pairing adjacent nodes left-to-right reproduces `MerkleTree::new`, and the
pointer walk of `MerklePath::new` becomes index arithmetic (the sibling of
node `i` in a layer is `i ^ 1`, its parent in the next layer is `i / 2`),
which visits exactly the nodes the source visits. -/

/-- Hashes are 32-byte values, as byte lists. -/
abbrev Hash := List Nat

/-- `util::is_power_of_2`. -/
def isPowerOf2 (n : Nat) : Bool :=
  if n = 0 then false else (n &&& (n - 1)) == 0

/-- Whether a sibling hash in a `MerklePath` is the left or the right child of
the shared parent (`merkle::SiblingPosition`). -/
inductive SiblingPos where
  | left
  | right
deriving DecidableEq

/-- A Merkle inclusion path: `(sibling hash, sibling position)` pairs ordered
from the leaf to just below the root. -/
abbrev MPath := List (Hash × SiblingPos)

/-- Leaf hash: BLAKE3 of the one-byte canonical form (`MerkleTree::new`). -/
def leafHash (v : F17) : Hash := blake3Hash [v.val]

/-- One level of tree construction: hash adjacent pairs left-to-right
(`as_chunks::<2>` drops any odd remainder, which never occurs for power-of-two
layers). -/
def pairUp : List Hash → List Hash
  | a :: b :: t => blake3Hash (a ++ b) :: pairUp t
  | _ => []

/-- The repeated pairing of `MerkleTree::new` (`while current_layer.len() > 1`),
with explicit fuel; any fuel at least the layer length is enough. -/
def rootAux : Nat → List Hash → Hash
  | 0, layer => layer.headD []
  | fuel + 1, layer =>
    if layer.length ≤ 1 then layer.headD [] else rootAux fuel (pairUp layer)

/-- The Merkle root of a list of leaf values. -/
def merkleRoot (leafValues : List F17) : Hash :=
  rootAux leafValues.length (leafValues.map leafHash)

/-- `MerkleTree::new`: panics (here `none`) unless the leaf count is a power
of two. -/
def merkleTreeNew (leafValues : List F17) : Option Hash :=
  if isPowerOf2 leafValues.length then some (merkleRoot leafValues) else none

/-- The leaf-to-root walk of `MerklePath::new` as index arithmetic: at each
layer record the sibling hash together with which child of the parent the
sibling is. -/
def pathAux : Nat → List Hash → Nat → MPath
  | 0, _, _ => []
  | fuel + 1, layer, i =>
    if layer.length ≤ 1 then []
    else
      (if i % 2 = 0 then (layer.getD (i + 1) [], SiblingPos.right)
       else (layer.getD (i - 1) [], SiblingPos.left)) ::
        pathAux fuel (pairUp layer) (i / 2)

/-- `MerklePath::new`: errors when the index is out of bounds, otherwise walks
from leaf `index` to the root. -/
def merklePathNew (leafValues : List F17) (index : Nat) : Option MPath :=
  if index ≥ leafValues.length then none
  else some (pathAux leafValues.length (leafValues.map leafHash) index)

/-- Path verification as performed by the verifier
(`merkle_proof.verify_inclusion(value, root)` in `src/verifier.rs`).
Modelled from the spec, §4.4 Verification (the `MerklePath` method itself is
not under `src/`, only its caller and the identical tree-based
`MerkleTree::verify_inclusion` fold are): recompute the leaf hash, fold the
path entries — sibling first when the sibling is the left child — and accept
iff the result equals the root. -/
def verifyInclusion (value : F17) (path : MPath) (root : Hash) : Bool :=
  path.foldl
    (fun current entry =>
      match entry.2 with
      | SiblingPos.left => blake3Hash (entry.1 ++ current)
      | SiblingPos.right => blake3Hash (current ++ entry.1))
    (blake3Hash [value.val]) == root

/-! ### Channel (`src/channel.rs`) -/

/-- The Fiat-Shamir channel state: current digest, draw counter, and the
absorbed commitments. -/
structure Channel where
  currentHash : Hash
  count : Nat
  commitments : List Hash
deriving DecidableEq

/-- The fixed public salt `CHANNEL_SALT = [42]`. -/
def channelSalt : List Nat := [42]

/-- `Channel::new`: digest initialized to the hash of the salt. -/
def channelNew : Channel := ⟨blake3Hash channelSalt, 0, []⟩

/-- `Channel::commit`: record the commitment and absorb it into the digest. -/
def channelCommit (ch : Channel) (commitment : Hash) : Channel :=
  { currentHash := blake3Hash (ch.currentHash ++ commitment)
    count := ch.count
    commitments := ch.commitments ++ [commitment] }

/-- Little-endian bytes of the `u64` draw counter. -/
def le64 (n : Nat) : List Nat :=
  [n % 256, n / 256 % 256, n / 256 ^ 2 % 256, n / 256 ^ 3 % 256,
   n / 256 ^ 4 % 256, n / 256 ^ 5 % 256, n / 256 ^ 6 % 256, n / 256 ^ 7 % 256]

/-- `Channel::rehash_after_draw`: absorb the (pre-increment) counter bytes and
bump the counter. -/
def rehashAfterDraw (ch : Channel) : Channel :=
  { currentHash := blake3Hash (ch.currentHash ++ le64 ch.count)
    count := ch.count + 1
    commitments := ch.commitments }

/-- The first four digest bytes as a little-endian signed 32-bit integer
(`i32::from_le_bytes`). -/
def digestI32 (h : Hash) : Int :=
  let u := h.getD 0 0 + 256 * h.getD 1 0 + 65536 * h.getD 2 0 + 16777216 * h.getD 3 0
  if u < 2147483648 then (u : Int) else (u : Int) - 4294967296

/-- `Channel::random_element`: reduce the leading four digest bytes into the
field (via `From<i32>`), then rehash. -/
def randomElement (ch : Channel) : F17 × Channel :=
  (fOfInt (digestI32 ch.currentHash), rehashAfterDraw ch)

/-- `Channel::random_integer`: the first digest byte modulo `upper_bound`,
then rehash (the source `u8 % 0` would panic; every call site passes 6). -/
def randomInteger (ch : Channel) (upperBound : Nat) : Nat × Channel :=
  (ch.currentHash.getD 0 0 % upperBound, rehashAfterDraw ch)

/-- `Channel::finalize`: the absorbed commitments, in order. -/
def channelFinalize (ch : Channel) : List Hash := ch.commitments

/-! ### Proof shape (`src/lib.rs`) -/

/-- The query openings of the proof (`ProofQueryPhase` in `src/lib.rs`):
four (value, Merkle path) pairs and the final bare scalar. -/
structure ProofQueryPhase where
  traceX : F17 × MPath
  traceGx : F17 × MPath
  cpMinusX : F17 × MPath
  friLayerDeg1MinusX : F17 × MPath
  friLayerDeg0X : F17
deriving DecidableEq

/-- The STARK proof (`StarkProof` in `src/lib.rs`): three Merkle roots and the
query openings. -/
structure StarkProof where
  traceLdeCommitment : Hash
  compositionPolyLdeCommitment : Hash
  friLayerDeg1Commitment : Hash
  queryPhase : ProofQueryPhase
deriving DecidableEq

/-! ### Prover (`src/prover.rs`)

`generate_proof` takes no input; each intermediate value of its straight-line
body is a top-level definition here, composed in exactly the source order.
Where the source unwraps a `Result` that cannot fail on this run (interpolation
over `DOMAIN_TRACE`, `MerkleTree::new` on power-of-two leaves, `MerklePath::new`
in bounds, `fri_step` on at least two coefficients) the embedding reads the
`Option` with a junk default; the a-priori-impossible defaults are never hit,
as the final theorems evaluate. -/

/-- The prover-side FRI helper (`prover::fri_step`): square the first half of
the domain, fold the polynomial. -/
def proverFriStep (domain : List F17) (p : List F17) (beta : F17) :
    List F17 × List F17 :=
  ((domain.take (domain.length / 2)).map (fun x => fexp x 2), (friStep p beta).getD [0])

/-- The interpolated trace polynomial `T(x)`. -/
def tracePolynomial : List F17 := (lagrangeInterp DOMAIN_TRACE generateTrace).getD [0]

/-- The trace LDE: `T` evaluated over `DOMAIN_LDE`. -/
def traceLde : List F17 := evalDomain tracePolynomial DOMAIN_LDE

/-- Root of the Merkle tree over the trace LDE. -/
def traceLdeRoot : Hash := (merkleTreeNew traceLde).getD []

/-- Channel after the first commitment. -/
def proverCh1 : Channel := channelCommit channelNew traceLdeRoot

/-- First drawn composition coefficient `alpha_0`. -/
def proverAlpha0 : F17 := (randomElement proverCh1).1

/-- Channel after drawing `alpha_0`. -/
def proverCh2 : Channel := (randomElement proverCh1).2

/-- Second drawn composition coefficient `alpha_1`. -/
def proverAlpha1 : F17 := (randomElement proverCh2).1

/-- Channel after drawing `alpha_1`. -/
def proverCh3 : Channel := (randomElement proverCh2).2

/-- The prover's composition polynomial `CP`. -/
def proverCp : List F17 := compositionPolynomial proverAlpha0 proverAlpha1

/-- `CP` evaluated over `DOMAIN_LDE`. -/
def cpLde : List F17 := evalDomain proverCp DOMAIN_LDE

/-- Root of the Merkle tree over the composition-polynomial LDE. -/
def cpLdeRoot : Hash := (merkleTreeNew cpLde).getD []

/-- Channel after the second commitment. -/
def proverCh4 : Channel := channelCommit proverCh3 cpLdeRoot

/-- The FRI challenge `beta_fri_deg_1`. -/
def proverBeta1 : F17 := (randomElement proverCh4).1

/-- Channel after drawing `beta_fri_deg_1`. -/
def proverCh5 : Channel := (randomElement proverCh4).2

/-- Domain of the first FRI layer (first half of `DOMAIN_LDE`, squared). -/
def domainDeg1 : List F17 := (proverFriStep DOMAIN_LDE proverCp proverBeta1).1

/-- The degree-1 FRI layer polynomial. -/
def friLayerDeg1Poly : List F17 := (proverFriStep DOMAIN_LDE proverCp proverBeta1).2

/-- The degree-1 FRI layer evaluated over its domain. -/
def friLayerDeg1Eval : List F17 := evalDomain friLayerDeg1Poly domainDeg1

/-- Root of the Merkle tree over the degree-1 FRI layer. -/
def friLayerDeg1Root : Hash := (merkleTreeNew friLayerDeg1Eval).getD []

/-- Channel after the third commitment. -/
def proverCh6 : Channel := channelCommit proverCh5 friLayerDeg1Root

/-- The FRI challenge `beta_fri_deg_0`. -/
def proverBeta0 : F17 := (randomElement proverCh6).1

/-- Channel after drawing `beta_fri_deg_0`. -/
def proverCh7 : Channel := (randomElement proverCh6).2

/-- Domain of the final FRI layer. -/
def domainDeg0 : List F17 := (proverFriStep domainDeg1 friLayerDeg1Poly proverBeta0).1

/-- The degree-0 FRI layer polynomial. -/
def friLayerDeg0Poly : List F17 := (proverFriStep domainDeg1 friLayerDeg1Poly proverBeta0).2

/-- The single value of the degree-0 FRI layer. -/
def friLayerDeg0Eval : F17 := evalP friLayerDeg0Poly (domainDeg0.getD 0 0)

/-- The drawn query index: `random_integer(8 - 2)`. -/
def proverQueryIdx : Nat := (randomInteger proverCh7 (8 - 2)).1

/-- Channel after drawing the query index. -/
def proverCh8 : Channel := (randomInteger proverCh7 (8 - 2)).2

/-- The invariant check of step 11 of the prover: the final domain has two
elements and the degree-0 layer evaluates identically on both
(the two `assert`s of `generate_proof`). -/
example : domainDeg0.length = 2 ∧
    evalP friLayerDeg0Poly (domainDeg0.getD 0 0) =
      evalP friLayerDeg0Poly (domainDeg0.getD 1 0) := by decide

/-- `prover::generate_query_phase`: open the four required positions with
their Merkle paths, plus the bare scalar. -/
def generateQueryPhase (queryIdx : Nat) (traceVals cpVals friVals : List F17)
    (friDeg0 : F17) : ProofQueryPhase :=
  let queryIdxFri1X := queryIdx % 4
  { traceX := (traceVals.getD queryIdx 0, (merklePathNew traceVals queryIdx).getD [])
    traceGx := (traceVals.getD (queryIdx + 2) 0,
      (merklePathNew traceVals (queryIdx + 2)).getD [])
    cpMinusX := (cpVals.getD ((queryIdx + 4) % 8) 0,
      (merklePathNew cpVals ((queryIdx + 4) % 8)).getD [])
    friLayerDeg1MinusX := (friVals.getD ((queryIdxFri1X + 2) % 4) 0,
      (merklePathNew friVals ((queryIdxFri1X + 2) % 4)).getD [])
    friLayerDeg0X := friDeg0 }

/-- `generate_proof`: the three finalized commitments and the query phase. -/
def generateProof : StarkProof :=
  let commitments := channelFinalize proverCh8
  { traceLdeCommitment := commitments.getD 0 []
    compositionPolyLdeCommitment := commitments.getD 1 []
    friLayerDeg1Commitment := commitments.getD 2 []
    queryPhase :=
      generateQueryPhase proverQueryIdx traceLde cpLde friLayerDeg1Eval friLayerDeg0Eval }

/-! ### Verifier (`src/verifier.rs`) -/

/-- `verifier::verify_merkle_proofs`: check every query opening against its
committed root, rejecting with the message that names the first failing check.
The source lists two further checks, for `cp_x` and `fri_layer_deg_1_x`
openings, but `ProofQueryPhase` in `src/lib.rs` has no such fields (and
`generate_query_phase` produces none), so the checks on the four openings that
exist are embedded. -/
def verifyMerkleProofs (starkProof : StarkProof) : Except String Unit :=
  if ¬ verifyInclusion starkProof.queryPhase.traceX.1 starkProof.queryPhase.traceX.2
      starkProof.traceLdeCommitment then
    Except.error "trace_x merkle proof verification failed"
  else if ¬ verifyInclusion starkProof.queryPhase.traceGx.1
      starkProof.queryPhase.traceGx.2 starkProof.traceLdeCommitment then
    Except.error "trace_gx merkle proof verification failed"
  else if ¬ verifyInclusion starkProof.queryPhase.cpMinusX.1
      starkProof.queryPhase.cpMinusX.2 starkProof.compositionPolyLdeCommitment then
    Except.error "cp_minus_x merkle proof verification failed"
  else if ¬ verifyInclusion starkProof.queryPhase.friLayerDeg1MinusX.1
      starkProof.queryPhase.friLayerDeg1MinusX.2 starkProof.friLayerDeg1Commitment then
    Except.error "fri_layer_deg_1_minus_x merkle proof verification failed"
  else Except.ok ()

/-- `verifier::verify_query`: reconstruct the two constraint quotients at
`x = D_lde[idx]`, combine them with the drawn coefficients, undo the two FRI
folds with the opened values, and compare with the proof's final scalar. -/
def verifyQuery (queries : ProofQueryPhase) (alpha0 alpha1 betaFriDeg1 betaFriDeg0 : F17)
    (queryIdx : Nat) : Except String Unit :=
  match cyclicGroupNew 8 with
  | none => Except.error "Unsupported group size: 8"
  | some domainLde =>
    let x := domainLde.getD queryIdx 0
    let boundaryConstraintX := fdiv (fsub queries.traceX.1 (fOf 3)) (fsub x 1)
    let transitionConstraintX :=
      fdiv (fsub queries.traceGx.1 (fexp queries.traceX.1 2))
        (fmul (fmul (fsub x 1) (fsub x (fOf 13))) (fsub x (fOf 16)))
    let cpX := fadd (fmul boundaryConstraintX alpha0) (fmul transitionConstraintX alpha1)
    let cpMinusX := queries.cpMinusX.1
    let friLayerDeg1X :=
      fadd (fdiv (fadd cpX cpMinusX) (fOf 2))
        (fmul betaFriDeg1 (fdiv (fsub cpX cpMinusX) (fmul (fOf 2) x)))
    let x := fexp x 2
    let friLayerDeg1MinusX := queries.friLayerDeg1MinusX.1
    let expectedFriLayerDeg0X :=
      fadd (fdiv (fadd friLayerDeg1X friLayerDeg1MinusX) (fOf 2))
        (fmul betaFriDeg0 (fdiv (fsub friLayerDeg1X friLayerDeg1MinusX) (fmul (fOf 2) x)))
    if expectedFriLayerDeg0X = queries.friLayerDeg0X then Except.ok ()
    else Except.error "Final FRI layer check failed"

/-- `verifier::verify`: replay the channel interaction on the proof's
commitments, check the Merkle openings, then the algebraic consistency. -/
def verify (starkProof : StarkProof) : Except String Unit :=
  let ch := channelCommit channelNew starkProof.traceLdeCommitment
  let (alpha0, ch) := randomElement ch
  let (alpha1, ch) := randomElement ch
  let ch := channelCommit ch starkProof.compositionPolyLdeCommitment
  let (betaFriDeg1, ch) := randomElement ch
  let ch := channelCommit ch starkProof.friLayerDeg1Commitment
  let (betaFriDeg0, ch) := randomElement ch
  let (queryIdx, _) := randomInteger ch (8 - 2)
  match verifyMerkleProofs starkProof with
  | Except.error e => Except.error e
  | Except.ok _ => verifyQuery starkProof.queryPhase alpha0 alpha1 betaFriDeg1 betaFriDeg0 queryIdx

instance : DecidableEq (Except String Unit)
  | Except.ok (), Except.ok () => isTrue rfl
  | Except.ok (), Except.error _ => isFalse (fun h => Except.noConfusion h)
  | Except.error _, Except.ok () => isFalse (fun h => Except.noConfusion h)
  | Except.error e, Except.error f =>
    if h : e = f then isTrue (h ▸ rfl)
    else isFalse (fun hh => h (Except.error.inj hh))

/-! ### Bridge from coefficient lists to `Polynomial (ZMod 17)`

The algebraic claims (FRI fold identity, Lagrange round-trip) are proved by
mapping the embedded coefficient lists to Mathlib polynomials over `ZMod 17`
and transporting equalities back along the injective `toZ`. -/

/-- A coefficient list over `ZMod 17` as a Mathlib polynomial. -/
noncomputable def ofListZ : List (ZMod 17) → Polynomial (ZMod 17)
  | [] => 0
  | a :: t => Polynomial.C a + Polynomial.X * ofListZ t

/-- An embedded coefficient list as a Mathlib polynomial. -/
noncomputable def ofListF (p : List F17) : Polynomial (ZMod 17) := ofListZ (p.map toZ)

theorem ofListZ_coeff (l : List (ZMod 17)) (k : Nat) :
    (ofListZ l).coeff k = l.getD k 0 := by
  induction l generalizing k with
  | nil => simp [ofListZ]
  | cons a t ih =>
    cases k with
    | zero => simp [ofListZ, Polynomial.mul_coeff_zero]
    | succ n => simp [ofListZ, Polynomial.coeff_X_mul, ih]

theorem map_toZ_getD (l : List F17) (k : Nat) :
    (l.map toZ).getD k 0 = toZ (l.getD k 0) := by
  induction l generalizing k with
  | nil => simp [toZ_zero]
  | cons a t ih =>
    cases k with
    | zero => rfl
    | succ n => simp only [List.getD_cons_succ, List.map_cons]; exact ih n

theorem ofListF_coeff (p : List F17) (k : Nat) :
    (ofListF p).coeff k = toZ (p.getD k 0) := by
  rw [ofListF, ofListZ_coeff, map_toZ_getD]

theorem ofListF_polyAdd (p q : List F17) :
    ofListF (polyAdd p q) = ofListF p + ofListF q := by
  induction p generalizing q with
  | nil => simp [polyAdd, ofListF, ofListZ]
  | cons a p ih =>
    cases q with
    | nil => simp [polyAdd, ofListF, ofListZ]
    | cons b q =>
      show ofListF (fadd a b :: polyAdd p q) = _
      simp only [ofListF, List.map_cons, ofListZ, toZ_fadd]
      rw [show ofListZ (List.map toZ (polyAdd p q)) = ofListF (polyAdd p q) from rfl, ih]
      simp only [ofListF]
      push_cast [Polynomial.C_add]
      ring

/-- Sums over `List.range` as `Finset.range` sums. -/
theorem list_range_map_sum (n : Nat) (f : Nat → ZMod 17) :
    ((List.range n).map f).sum = ∑ i ∈ Finset.range n, f i := by
  induction n with
  | zero => simp
  | succ m ih => rw [List.range_succ, Finset.sum_range_succ, List.map_append, List.sum_append, ih]; simp

theorem toZ_foldl_fadd (f : Nat → F17) (l : List Nat) (acc : F17) :
    toZ (l.foldl (fun a i => fadd a (f i)) acc) =
      toZ acc + (l.map (fun i => toZ (f i))).sum := by
  induction l generalizing acc with
  | nil => simp
  | cons hd tl ih => rw [List.foldl_cons, ih, List.map_cons, List.sum_cons, toZ_fadd]; ring

theorem toZ_convCoeff (p q : List F17) (k : Nat) :
    toZ (convCoeff p q k) =
      ∑ i ∈ Finset.range (k + 1), toZ (p.getD i 0) * toZ (q.getD (k - i) 0) := by
  rw [convCoeff, toZ_foldl_fadd, toZ_zero, zero_add]
  rw [list_range_map_sum]
  exact Finset.sum_congr rfl fun i _ => toZ_fmul _ _

theorem polyMul_length (p q : List F17) :
    (polyMul p q).length = p.length + q.length - 1 := by
  simp [polyMul]

theorem polyMul_getD (p q : List F17) (k : Nat) :
    (polyMul p q).getD k 0 =
      if k < p.length + q.length - 1 then convCoeff p q k else 0 := by
  by_cases h : k < p.length + q.length - 1
  · rw [if_pos h, polyMul]
    rw [List.getD_eq_getElem?_getD]
    rw [List.getElem?_map]
    simp [List.getElem?_range h]
  · rw [if_neg h, List.getD_eq_default]
    rw [polyMul_length]
    omega

theorem ofListF_polyMul (p q : List F17) :
    ofListF (polyMul p q) = ofListF p * ofListF q := by
  ext k
  rw [ofListF_coeff, Polynomial.coeff_mul, polyMul_getD]
  rw [Finset.Nat.sum_antidiagonal_eq_sum_range_succ_mk]
  by_cases h : k < p.length + q.length - 1
  · rw [if_pos h, toZ_convCoeff]
    exact Finset.sum_congr rfl fun i _ => by rw [ofListF_coeff, ofListF_coeff]
  · rw [if_neg h, toZ_zero]
    refine (Finset.sum_eq_zero fun i hi => ?_).symm
    rw [Finset.mem_range] at hi
    rw [ofListF_coeff, ofListF_coeff]
    rcases Nat.lt_or_ge i p.length with hip | hip
    · have : q.length ≤ k - i := by omega
      rw [List.getD_eq_default _ _ this, toZ_zero, mul_zero]
    · rw [List.getD_eq_default _ _ hip, toZ_zero, zero_mul]

theorem ofListF_singleton (a : F17) : ofListF [a] = Polynomial.C (toZ a) := by
  simp [ofListF, ofListZ]

theorem ofListF_scalarMul (p : List F17) (a : F17) :
    ofListF (scalarMul p a) = ofListF p * Polynomial.C (toZ a) := by
  rw [scalarMul, ofListF_polyMul, ofListF_singleton]

theorem ofListF_nil : ofListF [] = 0 := rfl

/-- The evaluation loop of the source agrees with Mathlib evaluation of the
bridged polynomial, provided the `i as u8` exponent truncation is invisible:
either the evaluation point is nonzero (so only the exponent modulo the group
order matters) or the polynomial is shorter than 256 coefficients. -/
theorem evalAux_bridge (x : F17) (cs : List F17) :
    ∀ (acc : F17) (i : Nat), (x ≠ 0 ∨ i + cs.length ≤ 256) →
      toZ (evalAux x acc i cs) =
        toZ acc + toZ x ^ i * (ofListF cs).eval (toZ x) := by
  induction cs with
  | nil => intro acc i _; simp [evalAux, ofListF_nil]
  | cons c cs ih =>
    intro acc i hcond
    have hstep : toZ x ^ (i % 256) = toZ x ^ i := by
      rcases hcond with hx | hlen
      · exact zpow_mod256 (toZ_ne_zero x hx) i
      · have hi : i < 256 := by simp only [List.length_cons] at hlen; omega
        rw [Nat.mod_eq_of_lt hi]
    have hcond' : x ≠ 0 ∨ (i + 1) + cs.length ≤ 256 := by
      rcases hcond with hx | hlen
      · exact Or.inl hx
      · right; simp only [List.length_cons] at hlen; omega
    rw [evalAux, ih _ (i + 1) hcond']
    rw [toZ_fadd, toZ_fmul, toZ_fexp, hstep]
    show _ = toZ acc + toZ x ^ i * (ofListZ (toZ c :: List.map toZ cs)).eval (toZ x)
    rw [ofListZ]
    simp only [Polynomial.eval_add, Polynomial.eval_mul, Polynomial.eval_C, Polynomial.eval_X]
    rw [show (ofListZ (List.map toZ cs)).eval (toZ x) = (ofListF cs).eval (toZ x) from rfl]
    ring

theorem evalP_bridge (p : List F17) (x : F17) (h : x ≠ 0 ∨ p.length ≤ 256) :
    toZ (evalP p x) = (ofListF p).eval (toZ x) := by
  rw [evalP, evalAux_bridge x p 0 0 (by simpa using h), toZ_zero]
  ring

/-! ### The even/odd split of `Polynomial::fri_step` -/

theorem ofListF_cons (a : F17) (t : List F17) :
    ofListF (a :: t) = Polynomial.C (toZ a) + Polynomial.X * ofListF t := rfl

theorem evensL_cons (b : F17) (t : List F17) : evensL (b :: t) = b :: oddsL t := by
  cases t <;> rfl

theorem evensL_length (p : List F17) : (evensL p).length = (p.length + 1) / 2 := by
  induction p using evensL.induct with
  | case1 => rfl
  | case2 a => simp [evensL]
  | case3 a b t ih => simp only [evensL, List.length_cons, ih]; omega

theorem oddsL_length (p : List F17) : (oddsL p).length = p.length / 2 := by
  cases p with
  | nil => rfl
  | cons a t => simp only [oddsL, evensL_length, List.length_cons]

theorem polyAdd_length (p q : List F17) :
    (polyAdd p q).length = max p.length q.length := by
  induction p generalizing q with
  | nil => simp [polyAdd]
  | cons a p ih =>
    cases q with
    | nil => simp [polyAdd]
    | cons b q => simp only [polyAdd, List.length_cons, ih]; omega

theorem scalarMul_length (p : List F17) (a : F17) :
    (scalarMul p a).length = p.length := by
  simp [scalarMul, polyMul_length]

theorem friFold_length (p : List F17) (beta : F17) :
    (friFold p beta).length = (p.length + 1) / 2 := by
  simp only [friFold, polyAdd_length, scalarMul_length, evensL_length, oddsL_length]
  omega

/-- Any polynomial splits into its even and odd parts:
`p(z) = p_even(z^2) + z * p_odd(z^2)`, with the parts read off the
coefficient list as in `Polynomial::fri_step`. -/
theorem evenOdd_decomposition (p : List F17) (z : ZMod 17) :
    (ofListF p).eval z =
      (ofListF (evensL p)).eval (z ^ 2) + z * (ofListF (oddsL p)).eval (z ^ 2) := by
  induction p using evensL.induct with
  | case1 => simp [evensL, oddsL, ofListF_nil]
  | case2 a => simp [evensL, oddsL, ofListF_nil, ofListF_cons]
  | case3 a b t ih =>
    show (ofListF (a :: b :: t)).eval z = (ofListF (a :: evensL t)).eval (z ^ 2) +
      z * (ofListF (evensL (b :: t))).eval (z ^ 2)
    rw [evensL_cons]
    simp only [ofListF_cons, Polynomial.eval_add, Polynomial.eval_mul,
      Polynomial.eval_C, Polynomial.eval_X, ih]
    ring

/-- The fold evaluates as `p_even + beta * p_odd`. -/
theorem friFold_eval (p : List F17) (beta : F17) (y : ZMod 17) :
    (ofListF (friFold p beta)).eval y =
      (ofListF (evensL p)).eval y + toZ beta * (ofListF (oddsL p)).eval y := by
  rw [friFold, ofListF_polyAdd, ofListF_scalarMul]
  simp only [Polynomial.eval_add, Polynomial.eval_mul, Polynomial.eval_C]
  ring

/-- C5 (as amended: the evaluation point must be nonzero, since at `x = 0` the
right-hand side divides by `2x = 0` and the source panics): for every
polynomial with at least two coefficients, every `beta` and every `x ≠ 0`,
`fri_step(p, beta)` succeeds and its value at `x^2` is
`(p(x) + p(-x))/2 + beta * (p(x) - p(-x))/(2x)`. -/
theorem fri_fold_identity_nonzero (p : List F17) (beta x : F17)
    (hp : 2 ≤ p.length) (hx : x ≠ 0) :
    ∃ q, friStep p beta = some q ∧
      evalP q (fmul x x) =
        fadd (fdiv (fadd (evalP p x) (evalP p (fminus x))) (fOf 2))
          (fmul beta (fdiv (fsub (evalP p x) (evalP p (fminus x))) (fmul (fOf 2) x))) := by
  refine ⟨friFold p beta, by rw [friStep, if_pos hp], ?_⟩
  apply toZ_injective
  have hxx : fmul x x ≠ 0 := fmul_ne_zero x x hx hx
  have hmx : fminus x ≠ 0 := fminus_ne_zero x hx
  have h2 : (fOf 2 : F17) ≠ 0 := by decide
  have h2x : fmul (fOf 2) x ≠ 0 := fmul_ne_zero _ x h2 hx
  have hz : toZ x ≠ 0 := toZ_ne_zero x hx
  rw [evalP_bridge _ _ (Or.inl hxx), friFold_eval, toZ_fmul]
  rw [toZ_fadd, toZ_fmul, toZ_fdiv _ h2, toZ_fdiv _ h2x, toZ_fadd, toZ_fsub,
    toZ_fmul, evalP_bridge p x (Or.inl hx), evalP_bridge p (fminus x) (Or.inl hmx),
    toZ_fminus]
  have hd1 := evenOdd_decomposition p (toZ x)
  have hd2 := evenOdd_decomposition p (-(toZ x))
  rw [neg_sq] at hd2
  rw [hd1, hd2]
  have hsq : toZ x * toZ x = toZ x ^ 2 := (sq (toZ x)).symm
  have h2z : toZ (fOf 2) = 2 := by decide
  have htwo : (2 : ZMod 17) ≠ 0 := by decide
  rw [hsq, h2z]
  field_simp
  ring

/-- C5 cannot hold at `x = 0`: for `p(x) = x` and `beta = 1` the fold evaluates
to 1 at `0^2`, while the claimed right-hand side contains the division
`(p(0) - p(-0)) / (2*0)`, a divide-by-zero (a panic in the source, junk 0 in
the embedding), so the identity fails. -/
theorem fri_fold_identity_fails_at_zero :
    friStep [(0 : F17), 1] 1 = some (friFold [(0 : F17), 1] 1) ∧
    ¬ (evalP (friFold [(0 : F17), 1] 1) (fmul 0 0) =
        fadd (fdiv (fadd (evalP [(0 : F17), 1] 0) (evalP [(0 : F17), 1] (fminus 0))) (fOf 2))
          (fmul 1 (fdiv (fsub (evalP [(0 : F17), 1] 0) (evalP [(0 : F17), 1] (fminus 0)))
            (fmul (fOf 2) 0)))) := by decide

/-- Witness for `fri_fold_identity_nonzero` at `p = [1, 2, 3, 4]`, `beta = 7`,
`x = 3`. -/
theorem fri_fold_identity_nonzero_witness :
    ∃ q, friStep [(1 : F17), fOf 2, fOf 3, fOf 4] (fOf 7) = some q ∧
      evalP q (fmul (fOf 3) (fOf 3)) =
        fadd (fdiv (fadd (evalP [(1 : F17), fOf 2, fOf 3, fOf 4] (fOf 3))
            (evalP [(1 : F17), fOf 2, fOf 3, fOf 4] (fminus (fOf 3)))) (fOf 2))
          (fmul (fOf 7) (fdiv (fsub (evalP [(1 : F17), fOf 2, fOf 3, fOf 4] (fOf 3))
            (evalP [(1 : F17), fOf 2, fOf 3, fOf 4] (fminus (fOf 3))))
            (fmul (fOf 2) (fOf 3)))) :=
  fri_fold_identity_nonzero [(1 : F17), fOf 2, fOf 3, fOf 4] (fOf 7) (fOf 3)
    (by decide) (by decide)

/-- C6 (as amended: the output degree is the input degree halved rounded
DOWN, not up — the source's own `fri_step_deg_1` test folds a degree-1
polynomial to a single coefficient): `fri_step` fails on a constant
polynomial, and on at least two coefficients it halves the reported degree,
rounding down. -/
theorem fri_step_requires_two_and_halves_degree (p : List F17) (beta : F17) :
    (p.length < 2 → friStep p beta = none) ∧
    (∀ q, friStep p beta = some q → degreeP q = degreeP p / 2) := by
  constructor
  · intro h
    rw [friStep, if_neg (by omega)]
  · intro q hq
    rw [friStep] at hq
    by_cases h : 2 ≤ p.length
    · rw [if_pos h] at hq
      cases hq
      rw [degreeP, degreeP, friFold_length]
      omega
    · rw [if_neg h] at hq
      cases hq

/-- The claimed rounding direction is wrong: folding the two-coefficient
polynomial `[2, 3]` (degree 1) with `beta = 7` gives the single coefficient
`[2 + 3*7] = [6]`, of degree 0, not of degree `ceil(1/2) = 1`. -/
theorem fri_step_degree_not_rounded_up :
    friStep [fOf 2, fOf 3] (fOf 7) = some [fOf 6] ∧
    ¬ degreeP [fOf 6] = (degreeP [fOf 2, fOf 3] + 1) / 2 := by decide

/-- Witness for `fri_step_requires_two_and_halves_degree` at `p = [1,2,3,4]`,
discharging both implications on concrete inputs. -/
theorem fri_step_halves_degree_witness :
    degreeP [fadd 1 (fmul (fOf 2) (fOf 7)), fadd (fOf 3) (fmul (fOf 4) (fOf 7))] =
      degreeP [(1 : F17), fOf 2, fOf 3, fOf 4] / 2 :=
  (fri_step_requires_two_and_halves_degree [(1 : F17), fOf 2, fOf 3, fOf 4] (fOf 7)).2
    _ (by decide)

/-! ### Correctness of `Polynomial::lagrange_interp` -/

/-- A guarded fold is the fold over the filtered list (the shape of the
`if x_j != *domain_ele` loops in `partial_lagrange_poly`). -/
theorem foldl_if_filter {α β : Type} (P : α → Prop) [DecidablePred P]
    (g : β → α → β) (l : List α) :
    ∀ b : β, l.foldl (fun acc e => if P e then g acc e else acc) b =
      (l.filter (fun e => decide (P e))).foldl g b := by
  induction l with
  | nil => intro b; rfl
  | cons hd tl ih =>
    intro b
    by_cases h : P hd
    · simp only [List.foldl_cons, if_pos h]
      rw [ih, List.filter_cons_of_pos (by simpa using h), List.foldl_cons]
    · simp only [List.foldl_cons, if_neg h]
      rw [ih, List.filter_cons_of_neg (by simpa using h)]

/-- The linear factor `[-x_k, 1]` is `X - C x_k` after bridging. -/
theorem ofListF_linear (e : F17) :
    ofListF [fminus e, 1] = Polynomial.X - Polynomial.C (toZ e) := by
  simp only [ofListF, List.map_cons, List.map_nil, ofListZ, toZ_fminus, toZ_one,
    Polynomial.C_neg, Polynomial.C_1]
  ring

theorem foldl_polyMul_linear_bridge (fl : List F17) :
    ∀ init : List F17,
      ofListF (fl.foldl (fun acc ele => polyMul acc [fminus ele, 1]) init) =
        ofListF init * (fl.map (fun e => Polynomial.X - Polynomial.C (toZ e))).prod := by
  induction fl with
  | nil => intro init; simp
  | cons hd tl ih =>
    intro init
    rw [List.foldl_cons, ih, ofListF_polyMul, ofListF_linear, List.map_cons, List.prod_cons]
    ring

theorem foldl_polyMul_linear_length (fl : List F17) :
    ∀ init : List F17,
      (fl.foldl (fun acc ele => polyMul acc [fminus ele, 1]) init).length =
        init.length + fl.length := by
  induction fl with
  | nil => intro init; rfl
  | cons hd tl ih =>
    intro init
    rw [List.foldl_cons, ih, polyMul_length]
    simp only [List.length_cons, List.length_nil]
    omega

theorem toZ_foldl_fmul (xj : F17) (fl : List F17) :
    ∀ init : F17,
      toZ (fl.foldl (fun acc ele => fmul acc (fsub xj ele)) init) =
        toZ init * (fl.map (fun e => toZ xj - toZ e)).prod := by
  induction fl with
  | nil => intro init; simp
  | cons hd tl ih =>
    intro init
    rw [List.foldl_cons, ih, toZ_fmul, toZ_fsub, List.map_cons, List.prod_cons]
    ring

/-- Removing the unique occurrence of a member from a duplicate-free list by
filtering drops exactly one element. -/
theorem filter_ne_length {a : F17} {l : List F17} (hnd : l.Nodup) (ha : a ∈ l) :
    (l.filter (fun e => decide (a ≠ e))).length = l.length - 1 := by
  induction l with
  | nil => cases ha
  | cons hd tl ih =>
    rw [List.nodup_cons] at hnd
    by_cases h : a = hd
    · subst h
      have hnotin : ∀ e ∈ tl, a ≠ e := fun e he heq => hnd.1 (heq ▸ he)
      rw [List.filter_cons_of_neg (by simp),
        List.filter_eq_self.mpr (fun e he => by simpa using hnotin e he),
        List.length_cons]
      omega
    · have ha' : a ∈ tl := by
        rcases List.mem_cons.mp ha with h1 | h1
        · exact absurd h1 h
        · exact h1
      rw [List.filter_cons_of_pos (by simpa using h), List.length_cons,
        ih hnd.2 ha', List.length_cons]
      have h1 : 1 ≤ tl.length := List.length_pos.mpr (List.ne_nil_of_mem ha')
      omega

theorem ofListF_foldl_polyAdd (f : Nat → List F17) (l : List Nat) :
    ∀ init : List F17,
      ofListF (l.foldl (fun acc j => polyAdd acc (f j)) init) =
        ofListF init + (l.map (fun j => ofListF (f j))).sum := by
  induction l with
  | nil => intro init; simp
  | cons hd tl ih =>
    intro init
    rw [List.foldl_cons, ih, ofListF_polyAdd, List.map_cons, List.sum_cons]
    ring

theorem foldl_polyAdd_length (f : Nat → List F17) (n : Nat) :
    ∀ (l : List Nat) (init : List F17), (∀ j ∈ l, (f j).length = n) →
      init.length ≤ n → l ≠ [] →
      (l.foldl (fun acc j => polyAdd acc (f j)) init).length = n := by
  intro l
  induction l with
  | nil => intro init _ _ h; exact absurd rfl h
  | cons hd tl ih =>
    intro init hall hinit _
    by_cases htl : tl = []
    · subst htl
      rw [List.foldl_cons, List.foldl_nil, polyAdd_length,
        hall hd (List.mem_cons_self hd [])]
      omega
    · rw [List.foldl_cons]
      refine ih (polyAdd init (f hd)) (fun j hj => hall j (List.mem_cons_of_mem _ hj)) ?_ htl
      rw [polyAdd_length, hall hd (List.mem_cons_self hd tl)]
      omega

theorem lagrangeNumerator_bridge (xj : F17) (dom : List F17) :
    ofListF (lagrangeNumerator xj dom) =
      ((dom.filter (fun e => decide (xj ≠ e))).map
        (fun e => Polynomial.X - Polynomial.C (toZ e))).prod := by
  rw [lagrangeNumerator, foldl_if_filter (fun e => xj ≠ e),
    foldl_polyMul_linear_bridge, ofListF_singleton, toZ_one, Polynomial.C_1, one_mul]

theorem lagrangeNumerator_length (xj : F17) (dom : List F17) :
    (lagrangeNumerator xj dom).length =
      1 + (dom.filter (fun e => decide (xj ≠ e))).length := by
  rw [lagrangeNumerator, foldl_if_filter (fun e => xj ≠ e),
    foldl_polyMul_linear_length]
  rfl

theorem lagrangeDenominator_bridge (xj : F17) (dom : List F17) :
    toZ (lagrangeDenominator xj dom) =
      ((dom.filter (fun e => decide (xj ≠ e))).map
        (fun e => toZ xj - toZ e)).prod := by
  rw [lagrangeDenominator, foldl_if_filter (fun e => xj ≠ e),
    toZ_foldl_fmul, toZ_one, one_mul]

theorem lagrangeDenominator_ne_zero (xj : F17) (dom : List F17) :
    toZ (lagrangeDenominator xj dom) ≠ 0 := by
  rw [lagrangeDenominator_bridge]
  apply List.prod_ne_zero
  intro h0
  obtain ⟨e, hemem, heq⟩ := List.mem_map.mp h0
  have hne : xj ≠ e := by simpa using (List.mem_filter.mp hemem).2
  exact hne (toZ_injective (sub_eq_zero.mp heq))

theorem nodup_getD_ne {l : List F17} (h : l.Nodup) {j k : Nat}
    (hj : j < l.length) (hk : k < l.length) (hjk : j ≠ k) :
    l.getD j 0 ≠ l.getD k 0 := by
  rw [List.getD_eq_getElem l 0 hj, List.getD_eq_getElem l 0 hk]
  intro heq
  exact hjk (List.Nodup.getElem_inj_iff h |>.mp heq)

theorem getD_mem {l : List F17} {k : Nat} (hk : k < l.length) : l.getD k 0 ∈ l := by
  rw [List.getD_eq_getElem l 0 hk]
  exact List.getElem_mem hk

/-- Value of one Lagrange basis summand at the `k`-th domain point: the
`j`-th evaluation if `j = k`, zero otherwise. -/
theorem lagrangeBasisPoly_eval (dom evals : List F17) (hnd : dom.Nodup)
    (j k : Nat) (hj : j < dom.length) (hk : k < dom.length) :
    (ofListF (lagrangeBasisPoly j dom evals)).eval (toZ (dom.getD k 0)) =
      if j = k then toZ (evals.getD j 0) else 0 := by
  have hdZ := lagrangeDenominator_ne_zero (dom.getD j 0) dom
  have hdF : lagrangeDenominator (dom.getD j 0) dom ≠ 0 :=
    fun h => hdZ (by rw [h]; exact toZ_zero)
  rw [lagrangeBasisPoly]
  simp only [polyDivScalar]
  rw [ofListF_scalarMul, ofListF_scalarMul, lagrangeNumerator_bridge]
  simp only [Polynomial.eval_mul, Polynomial.eval_C]
  rw [toZ_finv hdF]
  have heval : (((dom.filter (fun e => decide (dom.getD j 0 ≠ e))).map
      (fun e => Polynomial.X - Polynomial.C (toZ e))).prod).eval (toZ (dom.getD k 0)) =
      ((dom.filter (fun e => decide (dom.getD j 0 ≠ e))).map
        (fun e => toZ (dom.getD k 0) - toZ e)).prod := by
    rw [Polynomial.eval_list_prod, List.map_map]
    congr 1
    refine List.map_congr_left fun e _ => ?_
    simp
  rw [heval]
  by_cases hjk : j = k
  · subst hjk
    rw [if_pos rfl, ← lagrangeDenominator_bridge]
    rw [mul_comm, ← mul_assoc, inv_mul_cancel₀ hdZ, one_mul]
  · rw [if_neg hjk]
    have hmem : dom.getD k 0 ∈ dom.filter (fun e => decide (dom.getD j 0 ≠ e)) :=
      List.mem_filter.mpr ⟨getD_mem hk, by
        simpa using nodup_getD_ne hnd hj hk hjk⟩
    have hzero : (0 : ZMod 17) ∈ (dom.filter (fun e => decide (dom.getD j 0 ≠ e))).map
        (fun e => toZ (dom.getD k 0) - toZ e) :=
      List.mem_map.mpr ⟨dom.getD k 0, hmem, sub_self _⟩
    rw [List.prod_eq_zero hzero, zero_mul, zero_mul]

theorem lagrangeBasisPoly_length (dom evals : List F17) (hnd : dom.Nodup)
    {j : Nat} (hj : j < dom.length) :
    (lagrangeBasisPoly j dom evals).length = dom.length := by
  rw [lagrangeBasisPoly]
  simp only [polyDivScalar]
  rw [scalarMul_length, scalarMul_length, lagrangeNumerator_length,
    filter_ne_length hnd (getD_mem hj)]
  omega

/-- C8 (as amended: the round-trip statement requires a nonempty domain —
interpolating zero samples returns the zero polynomial `[0]`, whose reported
degree 0 is not `< 0`): `lagrange_interp` errors exactly on mismatched sizes,
and on `n ≥ 1` distinct domain points and `n` values it succeeds with a
polynomial of reported degree `< n` that reproduces every sample. -/
theorem lagrange_interp_round_trip :
    (∀ dom evals : List F17, dom.length ≠ evals.length →
      lagrangeInterp dom evals = none) ∧
    (∀ dom evals : List F17, dom.Nodup → dom.length = evals.length →
      1 ≤ dom.length →
      ∃ p, lagrangeInterp dom evals = some p ∧ degreeP p < dom.length ∧
        ∀ k, k < dom.length → evalP p (dom.getD k 0) = evals.getD k 0) := by
  constructor
  · intro dom evals h
    rw [lagrangeInterp, if_pos h]
  · intro dom evals hnd hlen h1
    have hlen17 : dom.length ≤ 17 := by
      have := List.Nodup.length_le_card hnd
      simpa using this
    have hblen : ∀ j ∈ List.range dom.length,
        (lagrangeBasisPoly j dom evals).length = dom.length := fun j hj =>
      lagrangeBasisPoly_length dom evals hnd (List.mem_range.mp hj)
    have hrlen : ((List.range dom.length).foldl
        (fun acc j => polyAdd acc (lagrangeBasisPoly j dom evals)) [0]).length =
        dom.length := by
      refine foldl_polyAdd_length _ dom.length _ [0] hblen (by simpa using h1) ?_
      intro hemp
      rw [List.range_eq_nil] at hemp
      omega
    refine ⟨_, by rw [lagrangeInterp, if_neg (not_not_intro hlen)], ?_, ?_⟩
    · rw [degreeP, hrlen]; omega
    · intro k hk
      apply toZ_injective
      rw [evalP_bridge _ _ (Or.inr (by rw [hrlen]; omega))]
      rw [ofListF_foldl_polyAdd]
      have hz : ofListF [0] = 0 := by
        rw [ofListF_singleton, toZ_zero, Polynomial.C_0]
      rw [hz]
      simp only [Polynomial.eval_add, Polynomial.eval_zero, zero_add]
      rw [← Polynomial.coe_evalRingHom,
        map_list_sum (Polynomial.evalRingHom (toZ (dom.getD k 0))), List.map_map]
      have hterm : ((List.range dom.length).map
          ((Polynomial.evalRingHom (toZ (dom.getD k 0))) ∘
            fun j => ofListF (lagrangeBasisPoly j dom evals))).sum =
          ∑ j ∈ Finset.range dom.length,
            (if j = k then toZ (evals.getD j 0) else 0) := by
        rw [list_range_map_sum]
        refine Finset.sum_congr rfl fun j hj => ?_
        have := lagrangeBasisPoly_eval dom evals hnd j k (List.mem_range.mp hj) hk
        simpa using this
      rw [hterm, Finset.sum_ite_eq' (Finset.range dom.length) k
        (fun j => toZ (evals.getD j 0)), if_pos (Finset.mem_range.mpr hk)]

/-- The claim fails for the empty domain: `lagrange_interp([], [])` succeeds
with the zero polynomial `[0]`, but its reported degree 0 is not `< 0`. -/
theorem lagrange_interp_empty_degree :
    lagrangeInterp [] [] = some [0] ∧
    ¬ degreeP [(0 : F17)] < ([] : List F17).length := by decide

/-- Witness for `lagrange_interp_round_trip`: interpolating the trace values
over the trace domain succeeds, has degree `< 4`, and reproduces all four
samples. -/
theorem lagrange_interp_round_trip_witness :
    ∃ p, lagrangeInterp DOMAIN_TRACE [fOf 3, fOf 9, fOf 13, fOf 16] = some p ∧
      degreeP p < DOMAIN_TRACE.length ∧
      ∀ k, k < DOMAIN_TRACE.length →
        evalP p (DOMAIN_TRACE.getD k 0) = [fOf 3, fOf 9, fOf 13, fOf 16].getD k 0 :=
  lagrange_interp_round_trip.2 DOMAIN_TRACE [fOf 3, fOf 9, fOf 13, fOf 16]
    (by decide) (by decide) (by decide)

/-! ### Channel interaction sequences -/

/-- One channel interaction: a prover message or a verifier draw. -/
inductive ChannelOp where
  | commit (c : Hash)
  | drawElement
  | drawInteger (upperBound : Nat)

/-- The visible output of a draw. -/
inductive DrawOut where
  | elem (v : F17)
  | int (v : Nat)
deriving DecidableEq

/-- Run an interleaved sequence of commits and draws against a channel,
collecting the draw outputs in order. -/
def runOps : Channel → List ChannelOp → Channel × List DrawOut
  | ch, [] => (ch, [])
  | ch, ChannelOp.commit c :: ops => runOps (channelCommit ch c) ops
  | ch, ChannelOp.drawElement :: ops =>
    let r := randomElement ch
    let rest := runOps r.2 ops
    (rest.1, DrawOut.elem r.1 :: rest.2)
  | ch, ChannelOp.drawInteger u :: ops =>
    let r := randomInteger ch u
    let rest := runOps r.2 ops
    (rest.1, DrawOut.int r.1 :: rest.2)

/-- The commitment arguments of an interaction sequence, in order. -/
def committedOf : List ChannelOp → List Hash
  | [] => []
  | ChannelOp.commit c :: ops => c :: committedOf ops
  | ChannelOp.drawElement :: ops => committedOf ops
  | ChannelOp.drawInteger _ :: ops => committedOf ops

/-- C4: two channels, each initialized by `Channel::new` and fed the same
interleaved sequence of commits and draws with identical commitment
arguments, produce identical outputs at every draw (and end in identical
states). -/
theorem channel_two_run_determinism (ops : List ChannelOp) (ch1 ch2 : Channel)
    (h1 : ch1 = channelNew) (h2 : ch2 = channelNew) :
    (runOps ch1 ops).2 = (runOps ch2 ops).2 ∧
    (runOps ch1 ops).1 = (runOps ch2 ops).1 := by
  subst h1
  subst h2
  exact ⟨rfl, rfl⟩

/-- Witness for `channel_two_run_determinism` on a concrete
commit/draw/commit/draw-integer sequence. -/
theorem channel_two_run_determinism_witness :
    (runOps channelNew [ChannelOp.commit [1, 2], ChannelOp.drawElement,
      ChannelOp.commit [3], ChannelOp.drawInteger 6]).2 =
    (runOps channelNew [ChannelOp.commit [1, 2], ChannelOp.drawElement,
      ChannelOp.commit [3], ChannelOp.drawInteger 6]).2 ∧
    (runOps channelNew [ChannelOp.commit [1, 2], ChannelOp.drawElement,
      ChannelOp.commit [3], ChannelOp.drawInteger 6]).1 =
    (runOps channelNew [ChannelOp.commit [1, 2], ChannelOp.drawElement,
      ChannelOp.commit [3], ChannelOp.drawInteger 6]).1 :=
  channel_two_run_determinism _ channelNew channelNew rfl rfl

theorem runOps_commitments (ops : List ChannelOp) :
    ∀ ch : Channel, (runOps ch ops).1.commitments = ch.commitments ++ committedOf ops := by
  induction ops with
  | nil => intro ch; simp [runOps, committedOf]
  | cons op ops ih =>
    intro ch
    cases op with
    | commit c =>
      rw [runOps, ih, committedOf]
      simp [channelCommit]
    | drawElement =>
      rw [runOps, committedOf]
      simpa [randomElement, rehashAfterDraw] using ih (rehashAfterDraw ch)
    | drawInteger u =>
      rw [runOps, committedOf]
      simpa [randomInteger, rehashAfterDraw] using ih (rehashAfterDraw ch)

/-- C10: `commit` appends exactly its argument to the commitment list and
leaves the draw counter unchanged; each draw bumps the counter by one and
leaves the commitments unchanged; consequently `finalize` returns exactly the
committed roots in absorption order. -/
theorem channel_frame_effects :
    (∀ (ch : Channel) (c : Hash),
      (channelCommit ch c).commitments = ch.commitments ++ [c] ∧
      (channelCommit ch c).count = ch.count) ∧
    (∀ ch : Channel, (randomElement ch).2.count = ch.count + 1 ∧
      (randomElement ch).2.commitments = ch.commitments) ∧
    (∀ (ch : Channel) (u : Nat), (randomInteger ch u).2.count = ch.count + 1 ∧
      (randomInteger ch u).2.commitments = ch.commitments) ∧
    (∀ ops : List ChannelOp,
      channelFinalize (runOps channelNew ops).1 = committedOf ops) := by
  refine ⟨fun ch c => ⟨rfl, rfl⟩, fun ch => ⟨rfl, rfl⟩, fun ch u => ⟨rfl, rfl⟩, fun ops => ?_⟩
  rw [channelFinalize, runOps_commitments]
  rfl

/-! ### Claim theorems about the prover and verifier runs -/

/-- C7: every `random_integer(u)` draw with positive bound lands in `[0, u)`;
on the actual proof-generation run the query index is below `6 = 8 - 2`, every
opened position is in bounds for its tree (sizes 8, 8 and 4), and exactly
three commitments have been absorbed when the channel is finalized. -/
theorem prover_query_bounds_and_commitments :
    (∀ (ch : Channel) (u : Nat), 0 < u → (randomInteger ch u).1 < u) ∧
    proverQueryIdx < 6 ∧ proverQueryIdx + 2 < 8 ∧
    (proverQueryIdx + 4) % 8 < 8 ∧ (proverQueryIdx % 4 + 2) % 4 < 4 ∧
    traceLde.length = 8 ∧ cpLde.length = 8 ∧ friLayerDeg1Eval.length = 4 ∧
    (channelFinalize proverCh8).length = 3 := by
  refine ⟨fun ch u hu => Nat.mod_lt _ hu, ?_⟩
  decide

/-- Witness for the hypothesis-bearing part of
`prover_query_bounds_and_commitments`: a concrete draw with bound 6 is below
6. -/
theorem prover_query_bounds_witness : (randomInteger channelNew 6).1 < 6 :=
  prover_query_bounds_and_commitments.1 channelNew 6 (by decide)

/-- C9: multiplication is exactly `(a * b) mod 17` and lands back in `[0, 17)`;
computing it with every intermediate wrapped at the `u8` width changes nothing
(so the trick avoids overflow, the largest intermediate being
`a * (b - 1) ≤ 16 * 15 = 240 ≤ 255`); in particular `16 * 16 = 1`; and every
nonzero element times its `mult_inv` is 1. -/
theorem field_mul_exact_and_inverses :
    (∀ a b : F17, fmul a b = fOf (a.val * b.val) ∧ fmulU8 a b = fmul a b ∧
      (fmul a b).val < 17 ∧ (b ≠ 0 → a.val * (b.val - 1) ≤ 255)) ∧
    fmul (fOf 16) (fOf 16) = 1 ∧
    (∀ a : F17, a ≠ 0 → fmul a (finv a) = 1) := by decide

/-- Witness for `field_mul_exact_and_inverses`, discharging the nonzero
hypotheses at `a = 3`, `b = 5`. -/
theorem field_mul_exact_witness :
    (fOf 3).val * ((fOf 5).val - 1) ≤ 255 ∧ fmul (fOf 3) (finv (fOf 3)) = 1 :=
  ⟨(field_mul_exact_and_inverses.1 (fOf 3) (fOf 5)).2.2.2 (by decide),
   field_mul_exact_and_inverses.2.2 (fOf 3) (by decide)⟩

theorem fmul_comm : ∀ a b : F17, fmul a b = fmul b a := by decide

/-- The final-layer value computed by `verify_query`, written out with
`x = DOMAIN_LDE[idx]` (the list `CyclicGroup::new(8)` produces); straight-line
form of the source used to split the final comparison off the accept/reject
result. -/
def codeVerifierL0 (queries : ProofQueryPhase) (alpha0 alpha1 beta1 beta0 : F17)
    (queryIdx : Nat) : F17 :=
  let x := DOMAIN_LDE.getD queryIdx 0
  let boundaryConstraintX := fdiv (fsub queries.traceX.1 (fOf 3)) (fsub x 1)
  let transitionConstraintX :=
    fdiv (fsub queries.traceGx.1 (fexp queries.traceX.1 2))
      (fmul (fmul (fsub x 1) (fsub x (fOf 13))) (fsub x (fOf 16)))
  let cpX := fadd (fmul boundaryConstraintX alpha0) (fmul transitionConstraintX alpha1)
  let cpMinusX := queries.cpMinusX.1
  let friLayerDeg1X :=
    fadd (fdiv (fadd cpX cpMinusX) (fOf 2))
      (fmul beta1 (fdiv (fsub cpX cpMinusX) (fmul (fOf 2) x)))
  let x2 := fexp x 2
  let friLayerDeg1MinusX := queries.friLayerDeg1MinusX.1
  fadd (fdiv (fadd friLayerDeg1X friLayerDeg1MinusX) (fOf 2))
    (fmul beta0 (fdiv (fsub friLayerDeg1X friLayerDeg1MinusX) (fmul (fOf 2) x2)))

/-- The final-layer value claim C2 describes, following the claim's own
formulas: with `x = D_lde[idx]`,
`Q_bdry(x) = (trace_x - 3)/(x - 1)`,
`Q_trans(x) = (trace_gx - trace_x^2)/((x-1)(x-13)(x-16))`,
`CP(x) = alpha_0 * Q_bdry(x) + alpha_1 * Q_trans(x)`,
`L1_x2 = (CP(x) + CP(-x))/2 + beta_1 * (CP(x) - CP(-x))/(2x)` and
`L0_x4 = (L1_x2 + L1_neg_x2)/2 + beta_0 * (L1_x2 - L1_neg_x2)/(2 x^2)`,
where `CP(-x)` and `L1_neg_x2` are the opened proof values. -/
def specVerifierL0 (queries : ProofQueryPhase) (alpha0 alpha1 beta1 beta0 : F17)
    (queryIdx : Nat) : F17 :=
  let x := DOMAIN_LDE.getD queryIdx 0
  let qBdry := fdiv (fsub queries.traceX.1 (fOf 3)) (fsub x 1)
  let qTrans := fdiv (fsub queries.traceGx.1 (fmul queries.traceX.1 queries.traceX.1))
    (fmul (fmul (fsub x 1) (fsub x (fOf 13))) (fsub x (fOf 16)))
  let cpX := fadd (fmul alpha0 qBdry) (fmul alpha1 qTrans)
  let cpMinusX := queries.cpMinusX.1
  let l1X2 := fadd (fdiv (fadd cpX cpMinusX) (fOf 2))
    (fmul beta1 (fdiv (fsub cpX cpMinusX) (fmul (fOf 2) x)))
  let l1NegX2 := queries.friLayerDeg1MinusX.1
  fadd (fdiv (fadd l1X2 l1NegX2) (fOf 2))
    (fmul beta0 (fdiv (fsub l1X2 l1NegX2) (fmul (fOf 2) (fmul x x))))

theorem code_eq_spec_L0 (queries : ProofQueryPhase) (alpha0 alpha1 beta1 beta0 : F17)
    (queryIdx : Nat) :
    codeVerifierL0 queries alpha0 alpha1 beta1 beta0 queryIdx =
      specVerifierL0 queries alpha0 alpha1 beta1 beta0 queryIdx := by
  unfold codeVerifierL0 specVerifierL0
  simp only [fexp_two]
  rw [fmul_comm alpha0, fmul_comm alpha1]

theorem verifyQuery_as_comparison (queries : ProofQueryPhase)
    (alpha0 alpha1 beta1 beta0 : F17) (queryIdx : Nat) :
    verifyQuery queries alpha0 alpha1 beta1 beta0 queryIdx =
      if codeVerifierL0 queries alpha0 alpha1 beta1 beta0 queryIdx = queries.friLayerDeg0X
      then Except.ok () else Except.error "Final FRI layer check failed" := rfl

/-- C2: given the drawn values and a query index in `[0, 6)`, `verify_query`
accepts exactly when the value `L0_x4` reconstructed by the claim's formulas
equals the proof's `fri_layer_deg_0` scalar. -/
theorem verify_query_iff_final_scalar (queries : ProofQueryPhase)
    (alpha0 alpha1 beta1 beta0 : F17) (queryIdx : Nat) (_h : queryIdx < 6) :
    verifyQuery queries alpha0 alpha1 beta1 beta0 queryIdx = Except.ok () ↔
      specVerifierL0 queries alpha0 alpha1 beta1 beta0 queryIdx =
        queries.friLayerDeg0X := by
  rw [verifyQuery_as_comparison, code_eq_spec_L0]
  by_cases hc : specVerifierL0 queries alpha0 alpha1 beta1 beta0 queryIdx =
      queries.friLayerDeg0X
  · rw [if_pos hc]
    exact ⟨fun _ => hc, fun _ => rfl⟩
  · rw [if_neg hc]
    exact ⟨fun hco => Except.noConfusion hco, fun hcc => absurd hcc hc⟩

/-- Witness for `verify_query_iff_final_scalar` on an all-zero query phase at
index 3. -/
theorem verify_query_iff_final_scalar_witness :
    verifyQuery ⟨(0, []), (0, []), (0, []), (0, []), 0⟩ 0 0 0 0 3 = Except.ok () ↔
      specVerifierL0 ⟨(0, []), (0, []), (0, []), (0, []), 0⟩ 0 0 0 0 3 =
        (⟨(0, []), (0, []), (0, []), (0, []), 0⟩ : ProofQueryPhase).friLayerDeg0X :=
  verify_query_iff_final_scalar ⟨(0, []), (0, []), (0, []), (0, []), 0⟩ 0 0 0 0 3
    (by decide)

/-- C1: the happy path — verifying the generated proof accepts.  (Both
`generate_proof` and `verify` are embedded as pure functions of no inputs /
of the proof alone, which is the determinism and side-effect-freeness the
claim states.) -/
theorem happy_path_accepts : verify generateProof = Except.ok () := by decide

end Stark102
